import Mathlib

/-!
Verification of the background-removal CLI (`rembg/background_remover.py`)
as a shallow embedding. Paths are lists of characters; `pathlib`'s
`stem` / `suffix` / `parent` are embedded with their documented
index-based rules; the external segmentation library, the image decoder,
the image saver and `mkdir` are modelled as oracles supplied by a
`World` record. Pixel arithmetic follows PIL's integer blend used by
`Image.paste` with an alpha mask. The embedding covers relative paths
(the only kind the program constructs itself).
-/

namespace BackgroundRemover

/-- A Python string (paths, messages), modelled as a list of characters. -/
abbrev PyStr := List Char

/-- Splits a list at the last occurrence of `sep`: returns the parts
before and after that occurrence, or `none` when `sep` does not occur. -/
def splitLast (sep : Char) : PyStr → Option (PyStr × PyStr)
  | [] => none
  | c :: cs =>
    match splitLast sep cs with
    | some (b, a) => some (c :: b, a)
    | none => if c = sep then some ([], cs) else none

/-- Final path component, as `pathlib.PurePath.name` for relative paths:
everything after the last slash. -/
def pathName (p : PyStr) : PyStr :=
  match splitLast '/' p with
  | none => p
  | some (_, a) => a

/-- Logical parent, as `pathlib.PurePath.parent` for relative paths:
everything before the last slash, or `.` if there is no slash. -/
def pathParent (p : PyStr) : PyStr :=
  match splitLast '/' p with
  | none => ['.']
  | some (b, _) => b

/-- Path join as `pathlib`'s `/` operator on relative paths; a leading
`.` component is dropped, matching `str(Path(".") / name) == name`. -/
def pathJoin (d n : PyStr) : PyStr :=
  if d = ['.'] then n else d ++ '/' :: n

/-- File suffix, as `pathlib.PurePath.suffix`: the part of the name from
its last dot on, provided that dot is neither the first nor the last
character of the name; empty otherwise. -/
def pySuffix (name : PyStr) : PyStr :=
  match splitLast '.' name with
  | none => []
  | some (b, a) => if b ≠ [] ∧ a ≠ [] then '.' :: a else []

/-- File stem, as `pathlib.PurePath.stem`: the name with its `pySuffix`
removed. -/
def pyStem (name : PyStr) : PyStr :=
  match splitLast '.' name with
  | none => name
  | some (b, a) => if b ≠ [] ∧ a ≠ [] then b else name

/-- The fixed tag inserted between stem and suffix when the program
derives an output file name (`f"{stem}_no_bg{suffix}"`). -/
def noBgTag : PyStr := ['_', 'n', 'o', '_', 'b', 'g']

/-- Output path derived when none was supplied:
`str(input_path_obj.parent / f"{input_path_obj.stem}_no_bg{input_path_obj.suffix}")`. -/
def deriveOutputPath (input_path : PyStr) : PyStr :=
  pathJoin (pathParent input_path)
    (pyStem (pathName input_path) ++ noBgTag ++ pySuffix (pathName input_path))

/-- An RGBA pixel; channels are 8-bit values represented as naturals. -/
structure Pixel where
  r : Nat
  g : Nat
  b : Nat
  a : Nat
deriving DecidableEq, Repr

/-- PIL's integer alpha blend for `Image.paste` with a mask:
`(bg * (255 - mask) + fg * mask) / 255`. -/
def blend (mask bg fg : Nat) : Nat :=
  (bg * (255 - mask) + fg * mask) / 255

/-- A decoded image: whether its mode carries an alpha channel, its
size, and its pixels as a function of coordinates. -/
structure Img where
  hasAlpha : Bool
  w : Nat
  h : Nat
  px : Nat → Nat → Pixel

/-- The white-background step of `remove_background`: a white `RGB`
canvas of the output's size with the segmented image pasted onto it
using its own alpha channel as the mask. -/
def compositeWhite (img : Img) : Img :=
  { hasAlpha := false, w := img.w, h := img.h,
    px := fun x y =>
      let p := img.px x y
      { r := blend p.a 255 p.r, g := blend p.a 255 p.g,
        b := blend p.a 255 p.b, a := 255 } }

/-- One line printed by the program. -/
inductive LogLine where
  | noImagesInCwd
  | noImagesToProcess
  | found (n : Nat)
  | processed (input output : PyStr)
  | errorProcessing (input msg : PyStr)
deriving DecidableEq, Repr

/-- The per-file processor `remove_background`. The `openImg`, `seg`
and `save` oracles model `Image.open`, `new_session` plus `remove`,
and `Image.save`; an `Except.error` models a raised exception. The
function returns the success flag the source returns, together with
the file writes and log lines it performs. Every exception inside is
caught by the source's `try`, printed with the offending input path,
and turned into a `False` return. -/
def remove_background (openImg : PyStr → Except PyStr Img)
    (seg : PyStr → Img → Except PyStr Img)
    (save : PyStr → Except PyStr Unit)
    (input_path : PyStr) (output_path : Option PyStr)
    (white_background : Bool) (model : PyStr) :
    Bool × List (PyStr × Img) × List LogLine :=
  match openImg input_path with
  | Except.error e => (false, [], [LogLine.errorProcessing input_path e])
  | Except.ok input_image =>
    match seg model input_image with
    | Except.error e => (false, [], [LogLine.errorProcessing input_path e])
    | Except.ok segImage =>
      let output_image := if white_background then compositeWhite segImage else segImage
      let outp :=
        match output_path with
        | some p => p
        | none => deriveOutputPath input_path
      match save outp with
      | Except.error e => (false, [], [LogLine.errorProcessing input_path e])
      | Except.ok _ => (true, [(outp, output_image)], [LogLine.processed input_path outp])

/-- The glob patterns `["*.jpg", "*.jpeg", "*.png", "*.JPG", "*.JPEG",
"*.PNG"]`, each represented by the extension it requires as a suffix. -/
def imageExts : List PyStr :=
  [".jpg".toList, ".jpeg".toList, ".png".toList, ".JPG".toList, ".JPEG".toList, ".PNG".toList]

/-- Whether a name matches one of the six glob patterns. -/
def matchesImageExt (n : PyStr) : Bool :=
  imageExts.any (fun e => e.isSuffixOf n)

/-- Globbing the six patterns over one directory listing, in the order
the source uses: all matches of `*.jpg` first, then `*.jpeg`, and so
on, each in directory order. -/
def globDir (files : List PyStr) : List PyStr :=
  imageExts.flatMap (fun e => files.filter (fun f => e.isSuffixOf f))

/-- The parsed CLI arguments. -/
structure Args where
  input : List PyStr
  output : Option PyStr
  transparent : Bool
  all : Bool
  model : PyStr

/-- The environment of one run: the current-directory listing, the
file-system predicates, per-directory listings, the external oracles
and whether `mkdir(exist_ok=True)` succeeds on a given path. -/
structure World where
  cwdFiles : List PyStr
  isFile : PyStr → Bool
  isDir : PyStr → Bool
  dirFiles : PyStr → List PyStr
  openImg : PyStr → Except PyStr Img
  seg : PyStr → Img → Except PyStr Img
  save : PyStr → Except PyStr Unit
  mkdirOk : PyStr → Bool

/-- The input enumerator of `main`: the `--all` glob, the no-argument
default glob, or the per-argument file/directory expansion. Arguments
that are neither files nor directories contribute nothing. -/
def enumerate (w : World) (args : Args) : List PyStr :=
  if args.all then globDir w.cwdFiles
  else if args.input = [] then globDir w.cwdFiles
  else args.input.flatMap (fun item =>
    if w.isFile item then [item]
    else if w.isDir item then (globDir (w.dirFiles item)).map (fun n => pathJoin item n)
    else [])

/-- The output path `main` builds when `-o` is given:
`str(output_dir / f"{input_file.stem}{input_file.suffix}")`. -/
def outputPathWithDir (o f : PyStr) : PyStr :=
  pathJoin o (pyStem (pathName f) ++ pySuffix (pathName f))

/-- Accumulated observable effects of the processing loop. -/
structure LoopState where
  successCount : Nat
  writes : List (PyStr × Img)
  logs : List LogLine
  mkdirs : List PyStr

/-- Folds one `remove_background` result into the loop state. -/
def pushResult (st : LoopState) (r : Bool × List (PyStr × Img) × List LogLine) : LoopState :=
  { st with successCount := st.successCount + (if r.1 then 1 else 0),
            writes := st.writes ++ r.2.1,
            logs := st.logs ++ r.2.2 }

/-- Records the `mkdir(exist_ok=True)` call made when `-o` is set. -/
def pushMkdirOpt (st : LoopState) : Option PyStr → LoopState
  | none => st
  | some o => { st with mkdirs := st.mkdirs ++ [o] }

/-- An exception that escapes `main` unhandled. -/
inductive OsError where
  | mkdirFailed (path : PyStr)
deriving DecidableEq, Repr

/-- The per-file loop of `main`. The `mkdir` call sits inside the loop
but outside `remove_background`'s `try`, so its failure aborts the
whole loop; everything `remove_background` raises is absorbed into the
returned flag. -/
def processLoop (w : World) (args : Args) : List PyStr → LoopState → Except OsError LoopState
  | [], st => Except.ok st
  | f :: rest, st =>
    match args.output with
    | some o =>
      if w.mkdirOk o then
        processLoop w args rest
          (pushResult (pushMkdirOpt st (some o))
            (remove_background w.openImg w.seg w.save f (some (outputPathWithDir o f))
              (!args.transparent) args.model))
      else Except.error (OsError.mkdirFailed o)
    | none =>
      processLoop w args rest
        (pushResult st
          (remove_background w.openImg w.seg w.save f none (!args.transparent) args.model))

/-- The `remove_background` call the loop makes for one file. -/
def stepResult (w : World) (args : Args) (f : PyStr) : Bool × List (PyStr × Img) × List LogLine :=
  remove_background w.openImg w.seg w.save f
    (args.output.map (fun o => outputPathWithDir o f)) (!args.transparent) args.model

/-- Pure unfolding of `processLoop` along a list of files when no
`mkdir` failure interrupts it. -/
def loopSpec (w : World) (args : Args) : List PyStr → LoopState → LoopState
  | [], st => st
  | f :: rest, st =>
    loopSpec w args rest (pushResult (pushMkdirOpt st args.output) (stepResult w args f))

/-- The observable outcome of a completed run of `main`. -/
structure RunResult where
  logs : List LogLine
  writes : List (PyStr × Img)
  mkdirs : List PyStr
  successCount : Nat
  total : Nat
  summary : Option (Nat × Nat)

/-- The whole of `main` after argument parsing: enumeration, the two
early returns, the loop, and the final `successes/total` summary. -/
def mainRun (w : World) (args : Args) : Except OsError RunResult :=
  let input_files := enumerate w args
  if args.all = false ∧ args.input = [] ∧ input_files = [] then
    Except.ok ⟨[LogLine.noImagesInCwd], [], [], 0, 0, none⟩
  else if input_files = [] then
    Except.ok ⟨[LogLine.noImagesToProcess], [], [], 0, 0, none⟩
  else
    match processLoop w args input_files ⟨0, [], [], []⟩ with
    | Except.error e => Except.error e
    | Except.ok st =>
      Except.ok ⟨LogLine.found input_files.length :: st.logs, st.writes, st.mkdirs,
        st.successCount, input_files.length, some (st.successCount, input_files.length)⟩

/-- Replays a list of writes over an initially empty file system and
reads back one path; a later write to the same path overwrites an
earlier one. -/
def applyWrites (ws : List (PyStr × Img)) (p : PyStr) : Option Img :=
  ws.foldl (fun acc kv => if kv.1 = p then some kv.2 else acc) none

/-- The output path `remove_background` actually writes to: the explicit
one when given, the derived one otherwise. -/
def resolveOutputPath (output_path : Option PyStr) (input_path : PyStr) : PyStr :=
  match output_path with
  | some p => p
  | none => deriveOutputPath input_path

/-- A concrete RGBA test image of the given width. -/
def testImg (n : Nat) : Img :=
  { hasAlpha := true, w := n, h := 1, px := fun _ _ => { r := 10, g := 20, b := 30, a := 0 } }

/-- A concrete environment used to evaluate the theorems on closed
inputs: `a.png`, `b.png`, `doc.txt`, `p/a.png` and `q/a.png` exist as
files, `d` is a directory holding `x.png` and `y.txt`, the current
directory is empty, segmentation raises exactly on width-1 images (the
decode of `a.png`), saving always succeeds, and `mkdir` fails exactly
on `bad`. -/
def testWorld : World :=
  { cwdFiles := []
    isFile := fun p =>
      p == "a.png".toList || p == "b.png".toList || p == "doc.txt".toList ||
      p == "p/a.png".toList || p == "q/a.png".toList
    isDir := fun p => p == "d".toList
    dirFiles := fun p => if p == "d".toList then ["x.png".toList, "y.txt".toList] else []
    openImg := fun p => Except.ok (testImg (if p == "a.png".toList then 1 else 2))
    seg := fun _ i => if i.w == 1 then Except.error "boom".toList else Except.ok i
    save := fun _ => Except.ok ()
    mkdirOk := fun o => !(o == "bad".toList) }

/-! Basic facts about `splitLast` and the path helpers. -/

theorem splitLast_eq_none {sep : Char} {l : PyStr} (h : sep ∉ l) :
    splitLast sep l = none := by
  induction l with
  | nil => rfl
  | cons c cs ih =>
    have hc : ¬c = sep := fun hc => h (hc ▸ List.mem_cons_self c cs)
    rw [splitLast, ih (fun hm => h (List.mem_cons_of_mem c hm)), if_neg hc]

theorem splitLast_append {sep : Char} (b : PyStr) {a : PyStr} (h : sep ∉ a) :
    splitLast sep (b ++ sep :: a) = some (b, a) := by
  induction b with
  | nil =>
    rw [List.nil_append, splitLast, splitLast_eq_none h, if_pos rfl]
  | cons c cs ih =>
    rw [List.cons_append, splitLast, ih]

theorem not_mem_of_splitLast_eq_none {sep : Char} {l : PyStr}
    (h : splitLast sep l = none) : sep ∉ l := by
  induction l with
  | nil => simp
  | cons c cs ih =>
    rw [splitLast] at h
    split at h
    · exact absurd h (by simp)
    · rename_i heq
      split at h
      · exact absurd h (by simp)
      · rename_i hc
        intro hm
        rcases List.mem_cons.mp hm with h1 | h2
        · exact hc h1.symm
        · exact ih heq h2

theorem splitLast_some {sep : Char} {l b a : PyStr} (h : splitLast sep l = some (b, a)) :
    l = b ++ sep :: a ∧ sep ∉ a := by
  induction l generalizing b a with
  | nil => simp [splitLast] at h
  | cons c cs ih =>
    rw [splitLast] at h
    split at h
    · rename_i b2 a2 heq
      obtain ⟨rfl, rfl⟩ : c :: b2 = b ∧ a2 = a := by simpa using h
      obtain ⟨hl, hna⟩ := ih heq
      exact ⟨by rw [hl, List.cons_append], hna⟩
    · rename_i heq
      split at h
      · rename_i hc
        obtain ⟨rfl, rfl⟩ : ([] : PyStr) = b ∧ cs = a := by simpa using h
        subst hc
        exact ⟨rfl, not_mem_of_splitLast_eq_none heq⟩
      · exact absurd h (by simp)

theorem stem_append_suffix (n : PyStr) : pyStem n ++ pySuffix n = n := by
  cases h : splitLast '.' n with
  | none => simp [pyStem, pySuffix, h]
  | some pr =>
    obtain ⟨b, a⟩ := pr
    obtain ⟨hn, hna⟩ := splitLast_some h
    subst hn
    rcases Decidable.em (b ≠ [] ∧ a ≠ []) with hba | hba
    · simp [pyStem, pySuffix, splitLast_append b hna, hba]
    · simp [pyStem, pySuffix, splitLast_append b hna, hba]

theorem pathName_append {d n : PyStr} (h : '/' ∉ n) :
    pathName (d ++ '/' :: n) = n := by
  simp [pathName, splitLast_append d h]

theorem pathParent_append {d n : PyStr} (h : '/' ∉ n) :
    pathParent (d ++ '/' :: n) = d := by
  simp [pathParent, splitLast_append d h]

theorem pathName_no_slash {n : PyStr} (h : '/' ∉ n) : pathName n = n := by
  simp [pathName, splitLast_eq_none h]

theorem pathParent_no_slash {n : PyStr} (h : '/' ∉ n) : pathParent n = ['.'] := by
  simp [pathParent, splitLast_eq_none h]

theorem pySuffix_of_ext {s e : PyStr} (hs : s ≠ []) (he : e ≠ []) (hd : '.' ∉ e) :
    pySuffix (s ++ '.' :: e) = '.' :: e := by
  simp [pySuffix, splitLast_append s hd, hs, he]

theorem pyStem_of_ext {s e : PyStr} (hs : s ≠ []) (he : e ≠ []) (hd : '.' ∉ e) :
    pyStem (s ++ '.' :: e) = s := by
  simp [pyStem, splitLast_append s hd, hs, he]

/-- C3: when no explicit output path is given, the output path appends
the fixed tag `_no_bg` to the input's base name, keeping the input's
original extension and directory; a bare `photo.png` becomes
`photo_no_bg.png` in the same (current) directory. -/
theorem C3_derived_output_path (d s e : PyStr)
    (hd : d ≠ ['.']) (hs : s ≠ []) (he : e ≠ [])
    (hdot : '.' ∉ e) (hss : '/' ∉ s) (hse : '/' ∉ e) :
    deriveOutputPath (d ++ '/' :: (s ++ '.' :: e)) = d ++ '/' :: (s ++ noBgTag ++ '.' :: e) ∧
    deriveOutputPath (s ++ '.' :: e) = s ++ noBgTag ++ '.' :: e := by
  have hn : '/' ∉ s ++ '.' :: e := by
    intro hm
    rcases List.mem_append.mp hm with h1 | h2
    · exact hss h1
    · rcases List.mem_cons.mp h2 with h3 | h4
      · exact absurd h3 (by decide)
      · exact hse h4
  constructor
  · unfold deriveOutputPath
    rw [pathName_append hn, pathParent_append hn, pySuffix_of_ext hs he hdot,
      pyStem_of_ext hs he hdot]
    unfold pathJoin
    rw [if_neg hd]
  · unfold deriveOutputPath
    rw [pathName_no_slash hn, pathParent_no_slash hn, pySuffix_of_ext hs he hdot,
      pyStem_of_ext hs he hdot]
    unfold pathJoin
    rw [if_pos rfl]

/-- Witness for C3 at the spec's own example. -/
theorem C3_derived_output_path_witness :
    deriveOutputPath ("imgs".toList ++ '/' :: ("photo".toList ++ '.' :: "png".toList)) =
      "imgs".toList ++ '/' :: ("photo".toList ++ noBgTag ++ '.' :: "png".toList) ∧
    deriveOutputPath ("photo".toList ++ '.' :: "png".toList) =
      "photo".toList ++ noBgTag ++ '.' :: "png".toList :=
  C3_derived_output_path "imgs".toList "photo".toList "png".toList
    (by decide) (by decide) (by decide) (by decide) (by decide) (by decide)

/-! The white-background composite. -/

theorem blend_zero_mask (c : Nat) : blend 0 255 c = 255 := by
  norm_num [blend]

/-- C2: for a successfully processed input, `--transparent` saves the
segmentation result itself, alpha channel included; by default the
saved image is the segmentation result pasted onto an all-white RGB
canvas of the same size with the segmentation alpha as mask, so it has
no alpha channel and is white wherever the segmentation alpha was
zero. -/
theorem C2_white_or_transparent
    (openImg : PyStr → Except PyStr Img) (sg : PyStr → Img → Except PyStr Img)
    (sv : PyStr → Except PyStr Unit) (ip : PyStr) (op : Option PyStr) (m : PyStr)
    (i0 segOut : Img)
    (hoi : openImg ip = Except.ok i0) (hsg : sg m i0 = Except.ok segOut)
    (hsave : sv (resolveOutputPath op ip) = Except.ok ()) :
    remove_background openImg sg sv ip op false m =
      (true, [(resolveOutputPath op ip, segOut)],
        [LogLine.processed ip (resolveOutputPath op ip)]) ∧
    remove_background openImg sg sv ip op true m =
      (true, [(resolveOutputPath op ip, compositeWhite segOut)],
        [LogLine.processed ip (resolveOutputPath op ip)]) ∧
    (compositeWhite segOut).hasAlpha = false ∧
    (compositeWhite segOut).w = segOut.w ∧
    (compositeWhite segOut).h = segOut.h ∧
    ∀ x y, (segOut.px x y).a = 0 →
      (compositeWhite segOut).px x y = { r := 255, g := 255, b := 255, a := 255 } := by
  refine ⟨?_, ?_, rfl, rfl, rfl, ?_⟩
  · cases op with
    | none => simp [remove_background, resolveOutputPath, hoi, hsg] at hsave ⊢; simp [hsave]
    | some p => simp [remove_background, resolveOutputPath, hoi, hsg] at hsave ⊢; simp [hsave]
  · cases op with
    | none => simp [remove_background, resolveOutputPath, hoi, hsg] at hsave ⊢; simp [hsave]
    | some p => simp [remove_background, resolveOutputPath, hoi, hsg] at hsave ⊢; simp [hsave]
  · intro x y h
    simp [compositeWhite, h, blend_zero_mask]

/-- Witness for C2 on a concrete world and file. -/
theorem C2_white_or_transparent_witness :
    remove_background testWorld.openImg testWorld.seg testWorld.save
        "b.png".toList none false "u2net".toList =
      (true, [(resolveOutputPath none "b.png".toList, testImg 2)],
        [LogLine.processed "b.png".toList (resolveOutputPath none "b.png".toList)]) ∧
    remove_background testWorld.openImg testWorld.seg testWorld.save
        "b.png".toList none true "u2net".toList =
      (true, [(resolveOutputPath none "b.png".toList, compositeWhite (testImg 2))],
        [LogLine.processed "b.png".toList (resolveOutputPath none "b.png".toList)]) ∧
    (compositeWhite (testImg 2)).hasAlpha = false ∧
    (compositeWhite (testImg 2)).w = (testImg 2).w ∧
    (compositeWhite (testImg 2)).h = (testImg 2).h ∧
    ∀ x y, ((testImg 2).px x y).a = 0 →
      (compositeWhite (testImg 2)).px x y = { r := 255, g := 255, b := 255, a := 255 } :=
  C2_white_or_transparent testWorld.openImg testWorld.seg testWorld.save
    "b.png".toList none "u2net".toList (testImg 2) (testImg 2) rfl rfl rfl

/-! Unfolding the per-file loop. -/

theorem processLoop_eq_loopSpec (w : World) (args : Args)
    (hmk : ∀ o, args.output = some o → w.mkdirOk o = true) :
    ∀ (fs : List PyStr) (st : LoopState),
      processLoop w args fs st = Except.ok (loopSpec w args fs st) := by
  intro fs
  induction fs with
  | nil => intro st; rfl
  | cons f rest ih =>
    intro st
    cases ho : args.output with
    | none =>
      simp [processLoop, loopSpec, ho, ih, stepResult, pushMkdirOpt]
    | some o =>
      simp [processLoop, loopSpec, ho, hmk o ho, ih, stepResult, pushMkdirOpt]

theorem loopSpec_spec (w : World) (args : Args) :
    ∀ (fs : List PyStr) (st : LoopState),
      loopSpec w args fs st =
        { successCount := st.successCount + fs.countP (fun f => (stepResult w args f).1),
          writes := st.writes ++ fs.flatMap (fun f => (stepResult w args f).2.1),
          logs := st.logs ++ fs.flatMap (fun f => (stepResult w args f).2.2),
          mkdirs := st.mkdirs ++ fs.flatMap (fun _ => args.output.toList) } := by
  intro fs
  induction fs with
  | nil =>
    intro st
    simp [loopSpec]
  | cons f rest ih =>
    intro st
    rw [loopSpec, ih]
    cases ho : args.output with
    | none =>
      simp [pushResult, pushMkdirOpt, ho, List.countP_cons, List.append_assoc]
      omega
    | some o =>
      simp [pushResult, pushMkdirOpt, ho, List.countP_cons, List.append_assoc]
      omega

theorem remove_background_success
    (oi : PyStr → Except PyStr Img) (sg : PyStr → Img → Except PyStr Img)
    (sv : PyStr → Except PyStr Unit) (ip : PyStr) (op : Option PyStr)
    (wb : Bool) (m : PyStr)
    (h : (remove_background oi sg sv ip op wb m).1 = true) :
    ∃ i, remove_background oi sg sv ip op wb m =
      (true, [(resolveOutputPath op ip, i)],
        [LogLine.processed ip (resolveOutputPath op ip)]) := by
  cases op with
  | none =>
    cases hoi : oi ip with
    | error e => simp [remove_background, hoi] at h
    | ok i0 =>
      cases hsg : sg m i0 with
      | error e => simp [remove_background, hoi, hsg] at h
      | ok s =>
        cases hsv : sv (deriveOutputPath ip) with
        | error e => simp [remove_background, hoi, hsg, hsv] at h
        | ok u =>
          cases u
          exact ⟨if wb then compositeWhite s else s,
            by simp [remove_background, resolveOutputPath, hoi, hsg, hsv]⟩
  | some p =>
    cases hoi : oi ip with
    | error e => simp [remove_background, hoi] at h
    | ok i0 =>
      cases hsg : sg m i0 with
      | error e => simp [remove_background, hoi, hsg] at h
      | ok s =>
        cases hsv : sv p with
        | error e => simp [remove_background, hoi, hsg, hsv] at h
        | ok u =>
          cases u
          exact ⟨if wb then compositeWhite s else s,
            by simp [remove_background, resolveOutputPath, hoi, hsg, hsv]⟩

theorem remove_background_failure
    (oi : PyStr → Except PyStr Img) (sg : PyStr → Img → Except PyStr Img)
    (sv : PyStr → Except PyStr Unit) (ip : PyStr) (op : Option PyStr)
    (wb : Bool) (m : PyStr)
    (h : (remove_background oi sg sv ip op wb m).1 = false) :
    ∃ msg, remove_background oi sg sv ip op wb m =
      (false, [], [LogLine.errorProcessing ip msg]) := by
  cases op with
  | none =>
    cases hoi : oi ip with
    | error e => exact ⟨e, by simp [remove_background, hoi]⟩
    | ok i0 =>
      cases hsg : sg m i0 with
      | error e => exact ⟨e, by simp [remove_background, hoi, hsg]⟩
      | ok s =>
        cases hsv : sv (deriveOutputPath ip) with
        | error e => exact ⟨e, by simp [remove_background, hoi, hsg, hsv]⟩
        | ok u =>
          cases u
          simp [remove_background, hoi, hsg, hsv] at h
  | some p =>
    cases hoi : oi ip with
    | error e => exact ⟨e, by simp [remove_background, hoi]⟩
    | ok i0 =>
      cases hsg : sg m i0 with
      | error e => exact ⟨e, by simp [remove_background, hoi, hsg]⟩
      | ok s =>
        cases hsv : sv p with
        | error e => exact ⟨e, by simp [remove_background, hoi, hsg, hsv]⟩
        | ok u =>
          cases u
          simp [remove_background, hoi, hsg, hsv] at h

/-! The input enumerator on explicit file arguments. -/

theorem flatMap_file_items (w : World) :
    ∀ l : List PyStr, (∀ f ∈ l, w.isFile f = true) →
      (l.flatMap (fun item =>
        if w.isFile item then [item]
        else if w.isDir item then (globDir (w.dirFiles item)).map (fun n => pathJoin item n)
        else [])) = l := by
  intro l
  induction l with
  | nil => intro _; rfl
  | cons f rest ih =>
    intro hf
    rw [List.flatMap_cons, ih (fun g hg => hf g (List.mem_cons_of_mem f hg)),
      if_pos (hf f (List.mem_cons_self f rest))]
    rfl

theorem enumerate_files (w : World) (args : Args)
    (hall : args.all = false) (hne : args.input ≠ [])
    (hfs : ∀ f ∈ args.input, w.isFile f = true) :
    enumerate w args = args.input := by
  unfold enumerate
  rw [hall]
  simp only [Bool.false_eq_true, if_false, if_neg hne]
  exact flatMap_file_items w args.input hfs

/-- C1: if processing raises for exactly one file of the list while
every other file succeeds, the exception is caught and logged with the
offending path, that file alone counts as a failure, every other file
still produces an output write, and the final summary is
`(total - 1)/total`. -/
theorem C1_one_failure_continues
    (w : World) (files : List PyStr) (bad : PyStr) (t : Bool) (m : PyStr)
    (hfs : ∀ f ∈ files, w.isFile f = true)
    (hcount : files.count bad = 1)
    (hgood : ∀ f ∈ files, f ≠ bad →
      (remove_background w.openImg w.seg w.save f none (!t) m).1 = true)
    (hbad : (remove_background w.openImg w.seg w.save bad none (!t) m).1 = false) :
    ∃ r, mainRun w ⟨files, none, t, false, m⟩ = Except.ok r ∧
      r.successCount = files.length - 1 ∧
      r.total = files.length ∧
      r.summary = some (files.length - 1, files.length) ∧
      (∃ msg, LogLine.errorProcessing bad msg ∈ r.logs) ∧
      (∀ f ∈ files, f ≠ bad → ∃ i, (deriveOutputPath f, i) ∈ r.writes) := by
  have hmem : bad ∈ files := List.count_pos_iff.mp (by omega)
  have hne : files ≠ [] := by
    intro h
    rw [h] at hmem
    simp at hmem
  have hstep : ∀ f, stepResult w ⟨files, none, t, false, m⟩ f =
      remove_background w.openImg w.seg w.save f none (!t) m := fun _ => rfl
  have henum : enumerate w ⟨files, none, t, false, m⟩ = files :=
    enumerate_files w ⟨files, none, t, false, m⟩ rfl hne hfs
  have hloop := processLoop_eq_loopSpec w ⟨files, none, t, false, m⟩
    (by intro o ho; simp at ho) files ⟨0, [], [], []⟩
  have hspec := loopSpec_spec w ⟨files, none, t, false, m⟩ files ⟨0, [], [], []⟩
  have hcp : files.countP (fun f => (stepResult w ⟨files, none, t, false, m⟩ f).1) =
      files.length - 1 := by
    have hlen := List.length_eq_countP_add_countP
      (fun f => (stepResult w ⟨files, none, t, false, m⟩ f).1) files
    have hfil : files.filter
        (fun f => decide ¬((stepResult w ⟨files, none, t, false, m⟩ f).1 = true)) =
        files.filter (fun x => x == bad) := by
      apply List.filter_congr
      intro f hf
      by_cases hfb : f = bad
      · subst hfb
        simp [hstep, hbad]
      · simp [hstep, hgood f hf hfb, hfb]
    have hone : files.countP
        (fun f => decide ¬((stepResult w ⟨files, none, t, false, m⟩ f).1 = true)) = 1 := by
      rw [List.countP_eq_length_filter, hfil, ← List.countP_eq_length_filter,
        ← List.count_eq_countP, hcount]
    omega
  refine ⟨⟨LogLine.found files.length :: (loopSpec w ⟨files, none, t, false, m⟩ files ⟨0, [], [], []⟩).logs,
    (loopSpec w ⟨files, none, t, false, m⟩ files ⟨0, [], [], []⟩).writes,
    (loopSpec w ⟨files, none, t, false, m⟩ files ⟨0, [], [], []⟩).mkdirs,
    (loopSpec w ⟨files, none, t, false, m⟩ files ⟨0, [], [], []⟩).successCount,
    files.length,
    some ((loopSpec w ⟨files, none, t, false, m⟩ files ⟨0, [], [], []⟩).successCount, files.length)⟩,
    ?_, ?_, ?_, ?_, ?_, ?_⟩
  · simp only [mainRun, henum]
    rw [if_neg (by simp [hne]), if_neg hne, hloop]
  · rw [hspec]
    simpa using hcp
  · rfl
  · rw [hspec]
    simpa using hcp
  · obtain ⟨msg, hmsg⟩ := remove_background_failure w.openImg w.seg w.save bad none (!t) m hbad
    refine ⟨msg, List.mem_cons_of_mem _ ?_⟩
    rw [hspec]
    simp only [List.nil_append]
    exact List.mem_flatMap.mpr ⟨bad, hmem, by rw [hstep, hmsg]; simp⟩
  · intro f hf hfb
    obtain ⟨i, hi⟩ := remove_background_success w.openImg w.seg w.save f none (!t) m
      (hgood f hf hfb)
    refine ⟨i, ?_⟩
    rw [hspec]
    simp only [List.nil_append]
    exact List.mem_flatMap.mpr ⟨f, hf, by rw [hstep, hi]; simp [resolveOutputPath]⟩

/-- Witness for C1: two files, the second of which fails in segmentation. -/
theorem C1_one_failure_continues_witness :
    ∃ r, mainRun testWorld
        ⟨["b.png".toList, "a.png".toList], none, false, false, "u2net".toList⟩ =
        Except.ok r ∧
      r.successCount = ["b.png".toList, "a.png".toList].length - 1 ∧
      r.total = ["b.png".toList, "a.png".toList].length ∧
      r.summary = some (["b.png".toList, "a.png".toList].length - 1,
        ["b.png".toList, "a.png".toList].length) ∧
      (∃ msg, LogLine.errorProcessing "a.png".toList msg ∈ r.logs) ∧
      (∀ f ∈ ["b.png".toList, "a.png".toList], f ≠ "a.png".toList →
        ∃ i, (deriveOutputPath f, i) ∈ r.writes) :=
  C1_one_failure_continues testWorld ["b.png".toList, "a.png".toList] "a.png".toList
    false "u2net".toList (by decide) (by decide) (by decide) (by decide)

/-- C4: with `-o <dir>` given, the output file path is
`dir/<input base name><input extension>` (original name preserved, no
`_no_bg` tag), and the idempotent `mkdir(exist_ok=True)` call creating
the directory if absent is made. -/
theorem C4_output_dir_redirect
    (w : World) (f o : PyStr) (t : Bool) (m : PyStr) (i0 s : Img)
    (hf : w.isFile f = true) (hmk : w.mkdirOk o = true)
    (hoi : w.openImg f = Except.ok i0) (hsg : w.seg m i0 = Except.ok s)
    (hsv : w.save (pathJoin o (pathName f)) = Except.ok ()) :
    mainRun w ⟨[f], some o, t, false, m⟩ = Except.ok
      ⟨[LogLine.found 1, LogLine.processed f (pathJoin o (pathName f))],
        [(pathJoin o (pathName f), if t then s else compositeWhite s)],
        [o], 1, 1, some (1, 1)⟩ := by
  have houtp : outputPathWithDir o f = pathJoin o (pathName f) := by
    unfold outputPathWithDir
    rw [stem_append_suffix]
  have henum : enumerate w ⟨[f], some o, t, false, m⟩ = [f] :=
    enumerate_files w _ rfl (by simp) (by simpa using hf)
  have hstep : stepResult w ⟨[f], some o, t, false, m⟩ f =
      (true, [(pathJoin o (pathName f), if t then s else compositeWhite s)],
        [LogLine.processed f (pathJoin o (pathName f))]) := by
    unfold stepResult
    cases t with
    | false => simp [remove_background, hoi, hsg, houtp, hsv]
    | true => simp [remove_background, hoi, hsg, houtp, hsv]
  have hmk' : ∀ o', (Args.mk [f] (some o) t false m).output = some o' → w.mkdirOk o' = true := by
    intro o' ho'
    obtain rfl : o = o' := by simpa using ho'
    exact hmk
  have hloop := processLoop_eq_loopSpec w ⟨[f], some o, t, false, m⟩ hmk' [f] ⟨0, [], [], []⟩
  have hspec := loopSpec_spec w ⟨[f], some o, t, false, m⟩ [f] ⟨0, [], [], []⟩
  simp only [mainRun, henum]
  rw [if_neg (by simp), if_neg (by simp), hloop, hspec]
  simp [hstep]

/-- Witness for C4 on a concrete world, file and output directory. -/
theorem C4_output_dir_redirect_witness :
    mainRun testWorld ⟨["b.png".toList], some "out".toList, false, false, "u2net".toList⟩ =
      Except.ok
        ⟨[LogLine.found 1,
            LogLine.processed "b.png".toList (pathJoin "out".toList (pathName "b.png".toList))],
          [(pathJoin "out".toList (pathName "b.png".toList),
            if false then testImg 2 else compositeWhite (testImg 2))],
          ["out".toList], 1, 1, some (1, 1)⟩ :=
  C4_output_dir_redirect testWorld "b.png".toList "out".toList false "u2net".toList
    (testImg 2) (testImg 2) (by decide) (by decide) rfl rfl rfl

/-- C7: with no positional arguments, no `--all`, and no recognized
image files in the current directory, the program only prints the
"no image files found in current directory" message and returns: no
summary, no writes, no processing. -/
theorem C7_no_files_in_cwd (w : World) (o : Option PyStr) (t : Bool) (m : PyStr)
    (hcwd : ∀ f ∈ w.cwdFiles, matchesImageExt f = false) :
    mainRun w ⟨[], o, t, false, m⟩ =
      Except.ok ⟨[LogLine.noImagesInCwd], [], [], 0, 0, none⟩ := by
  have hglob : globDir w.cwdFiles = [] := by
    unfold globDir
    rw [List.flatMap_eq_nil_iff]
    intro e he
    rw [List.filter_eq_nil_iff]
    intro f hf hsa
    have : matchesImageExt f = true := List.any_eq_true.mpr ⟨e, he, hsa⟩
    rw [hcwd f hf] at this
    exact Bool.noConfusion this
  have henum : enumerate w ⟨[], o, t, false, m⟩ = [] := by
    simp [enumerate, hglob]
  simp [mainRun, henum]

/-- Witness for C7 on a concrete world with an empty current directory. -/
theorem C7_no_files_in_cwd_witness :
    mainRun testWorld ⟨[], none, false, false, "u2net".toList⟩ =
      Except.ok ⟨[LogLine.noImagesInCwd], [], [], 0, 0, none⟩ :=
  C7_no_files_in_cwd testWorld none false "u2net".toList (by decide)

/-- C10: the `mkdir` for `-o` runs inside the per-file loop but outside
the per-file `try`/`except`, so when it raises the exception is
unhandled and the entire run aborts: no per-file error log, no failure
count, no summary. -/
theorem C10_mkdir_failure_aborts
    (w : World) (files : List PyStr) (o : PyStr) (t : Bool) (m : PyStr)
    (hne : files ≠ [])
    (hfs : ∀ f ∈ files, w.isFile f = true)
    (hmk : w.mkdirOk o = false) :
    mainRun w ⟨files, some o, t, false, m⟩ = Except.error (OsError.mkdirFailed o) := by
  have henum := enumerate_files w ⟨files, some o, t, false, m⟩ rfl hne hfs
  simp only [mainRun, henum]
  rw [if_neg (by simp [hne]), if_neg hne]
  cases files with
  | nil => exact absurd rfl hne
  | cons f rest => simp [processLoop, hmk]

/-- Witness for C10: `mkdir bad` fails, so the run aborts even though
the input file itself would process fine. -/
theorem C10_mkdir_failure_aborts_witness :
    mainRun testWorld ⟨["b.png".toList], some "bad".toList, false, false, "u2net".toList⟩ =
      Except.error (OsError.mkdirFailed "bad".toList) :=
  C10_mkdir_failure_aborts testWorld ["b.png".toList] "bad".toList false "u2net".toList
    (by decide) (by decide) (by decide)

/-- C9: with `-o dir` and two inputs sharing base name and extension
(possibly from different directories), both map to the identical output
path `dir/<name><ext>`; both writes happen, the later one overwrites
the earlier one on the file system, and the summary counts 2/2. -/
theorem C9_same_name_overwrite
    (w : World) (f1 f2 o : PyStr) (t : Bool) (m : PyStr) (i1 i2 s1 s2 : Img)
    (hf1 : w.isFile f1 = true) (hf2 : w.isFile f2 = true)
    (hmk : w.mkdirOk o = true)
    (hname : pathName f1 = pathName f2)
    (hoi1 : w.openImg f1 = Except.ok i1) (hsg1 : w.seg m i1 = Except.ok s1)
    (hoi2 : w.openImg f2 = Except.ok i2) (hsg2 : w.seg m i2 = Except.ok s2)
    (hsv : w.save (pathJoin o (pathName f1)) = Except.ok ()) :
    mainRun w ⟨[f1, f2], some o, t, false, m⟩ = Except.ok
      ⟨[LogLine.found 2, LogLine.processed f1 (pathJoin o (pathName f1)),
          LogLine.processed f2 (pathJoin o (pathName f1))],
        [(pathJoin o (pathName f1), if t then s1 else compositeWhite s1),
          (pathJoin o (pathName f1), if t then s2 else compositeWhite s2)],
        [o, o], 2, 2, some (2, 2)⟩ ∧
    applyWrites
      [(pathJoin o (pathName f1), if t then s1 else compositeWhite s1),
        (pathJoin o (pathName f1), if t then s2 else compositeWhite s2)]
      (pathJoin o (pathName f1)) = some (if t then s2 else compositeWhite s2) := by
  have houtp1 : outputPathWithDir o f1 = pathJoin o (pathName f1) := by
    unfold outputPathWithDir
    rw [stem_append_suffix]
  have houtp2 : outputPathWithDir o f2 = pathJoin o (pathName f1) := by
    unfold outputPathWithDir
    rw [stem_append_suffix, ← hname]
  have henum : enumerate w ⟨[f1, f2], some o, t, false, m⟩ = [f1, f2] := by
    refine enumerate_files w _ rfl (by simp) ?_
    intro g hg
    rcases List.mem_cons.mp hg with h1 | h2
    · exact h1 ▸ hf1
    · simp only [List.mem_singleton] at h2
      exact h2 ▸ hf2
  have hstep1 : stepResult w ⟨[f1, f2], some o, t, false, m⟩ f1 =
      (true, [(pathJoin o (pathName f1), if t then s1 else compositeWhite s1)],
        [LogLine.processed f1 (pathJoin o (pathName f1))]) := by
    unfold stepResult
    cases t with
    | false => simp [remove_background, hoi1, hsg1, houtp1, hsv]
    | true => simp [remove_background, hoi1, hsg1, houtp1, hsv]
  have hstep2 : stepResult w ⟨[f1, f2], some o, t, false, m⟩ f2 =
      (true, [(pathJoin o (pathName f1), if t then s2 else compositeWhite s2)],
        [LogLine.processed f2 (pathJoin o (pathName f1))]) := by
    unfold stepResult
    cases t with
    | false => simp [remove_background, hoi2, hsg2, houtp2, hsv]
    | true => simp [remove_background, hoi2, hsg2, houtp2, hsv]
  have hmk' : ∀ o', (Args.mk [f1, f2] (some o) t false m).output = some o' →
      w.mkdirOk o' = true := by
    intro o' ho'
    obtain rfl : o = o' := by simpa using ho'
    exact hmk
  have hloop := processLoop_eq_loopSpec w ⟨[f1, f2], some o, t, false, m⟩ hmk'
    [f1, f2] ⟨0, [], [], []⟩
  have hspec := loopSpec_spec w ⟨[f1, f2], some o, t, false, m⟩ [f1, f2] ⟨0, [], [], []⟩
  constructor
  · simp only [mainRun, henum]
    rw [if_neg (by simp), if_neg (by simp), hloop, hspec]
    simp [hstep1, hstep2]
  · simp [applyWrites]

/-- Witness for C9: `p/a.png` and `q/a.png` both land on `out/a.png`. -/
theorem C9_same_name_overwrite_witness :
    mainRun testWorld
        ⟨["p/a.png".toList, "q/a.png".toList], some "out".toList, false, false,
          "u2net".toList⟩ = Except.ok
      ⟨[LogLine.found 2,
          LogLine.processed "p/a.png".toList
            (pathJoin "out".toList (pathName "p/a.png".toList)),
          LogLine.processed "q/a.png".toList
            (pathJoin "out".toList (pathName "p/a.png".toList))],
        [(pathJoin "out".toList (pathName "p/a.png".toList),
            if false then testImg 2 else compositeWhite (testImg 2)),
          (pathJoin "out".toList (pathName "p/a.png".toList),
            if false then testImg 2 else compositeWhite (testImg 2))],
        ["out".toList, "out".toList], 2, 2, some (2, 2)⟩ ∧
    applyWrites
      [(pathJoin "out".toList (pathName "p/a.png".toList),
          if false then testImg 2 else compositeWhite (testImg 2)),
        (pathJoin "out".toList (pathName "p/a.png".toList),
          if false then testImg 2 else compositeWhite (testImg 2))]
      (pathJoin "out".toList (pathName "p/a.png".toList)) =
      some (if false then testImg 2 else compositeWhite (testImg 2)) :=
  C9_same_name_overwrite testWorld "p/a.png".toList "q/a.png".toList "out".toList
    false "u2net".toList (testImg 2) (testImg 2) (testImg 2) (testImg 2)
    (by decide) (by decide) (by decide) (by decide) rfl rfl rfl rfl rfl

/-! Membership facts about globbing. -/

theorem mem_globDir_matches {fs : List PyStr} {p : PyStr} (hp : p ∈ globDir fs) :
    matchesImageExt p = true := by
  obtain ⟨e, he, hpe⟩ := List.mem_flatMap.mp hp
  obtain ⟨-, hsuf⟩ := List.mem_filter.mp hpe
  exact List.any_eq_true.mpr ⟨e, he, hsuf⟩

theorem matchesImageExt_pathJoin {d n : PyStr} (h : matchesImageExt n = true) :
    matchesImageExt (pathJoin d n) = true := by
  obtain ⟨e, he, hsuf⟩ := List.any_eq_true.mp h
  refine List.any_eq_true.mpr ⟨e, he, ?_⟩
  rw [List.isSuffixOf_iff_suffix] at hsuf ⊢
  unfold pathJoin
  by_cases hd : d = ['.']
  · rw [if_pos hd]
    exact hsuf
  · rw [if_neg hd]
    exact hsuf.trans ⟨d ++ ['/'], by simp⟩

/-- C5 fails as stated: an explicit positional argument that exists as
a file is enumerated even when its extension is not among the
recognized image extensions (`doc.txt` here). -/
theorem C5_counterexample :
    "doc.txt".toList ∈
      enumerate testWorld ⟨["doc.txt".toList], none, false, false, "u2net".toList⟩ ∧
    matchesImageExt "doc.txt".toList = false := by
  decide

/-- C5 amended: every enumerated candidate either matches one of the
six recognized image extensions (all candidates coming from a glob do)
or is an explicit positional argument that exists as a file — such
arguments are included without any extension filtering. -/
theorem C5_amended_extension_filter (w : World) (args : Args) (p : PyStr)
    (hp : p ∈ enumerate w args) :
    matchesImageExt p = true ∨ (p ∈ args.input ∧ w.isFile p = true) := by
  unfold enumerate at hp
  by_cases hall : args.all = true
  · rw [if_pos hall] at hp
    exact Or.inl (mem_globDir_matches hp)
  · rw [if_neg hall] at hp
    by_cases hin : args.input = []
    · rw [if_pos hin] at hp
      exact Or.inl (mem_globDir_matches hp)
    · rw [if_neg hin] at hp
      obtain ⟨item, hitem, hmem⟩ := List.mem_flatMap.mp hp
      by_cases hf : w.isFile item = true
      · rw [if_pos hf] at hmem
        obtain rfl : p = item := by simpa using hmem
        exact Or.inr ⟨hitem, hf⟩
      · rw [if_neg hf] at hmem
        by_cases hd : w.isDir item = true
        · rw [if_pos hd] at hmem
          obtain ⟨n, hn, rfl⟩ := List.mem_map.mp hmem
          exact Or.inl (matchesImageExt_pathJoin (mem_globDir_matches hn))
        · rw [if_neg hd] at hmem
          simp at hmem

/-- Witness for the amended C5 at a concrete enumeration. -/
theorem C5_amended_extension_filter_witness :
    matchesImageExt "doc.txt".toList = true ∨
      ("doc.txt".toList ∈
          (Args.mk ["doc.txt".toList] none false false "u2net".toList).input ∧
        testWorld.isFile "doc.txt".toList = true) :=
  C5_amended_extension_filter testWorld
    ⟨["doc.txt".toList], none, false, false, "u2net".toList⟩ "doc.txt".toList (by decide)

/-- C6 fails as stated: the same existing file listed twice among the
positional arguments appears twice in the candidate list, which is
therefore not duplicate-free. -/
theorem C6_counterexample :
    enumerate testWorld
        ⟨["a.png".toList, "a.png".toList], none, false, false, "u2net".toList⟩ =
      ["a.png".toList, "a.png".toList] ∧
    ¬ (enumerate testWorld
        ⟨["a.png".toList, "a.png".toList], none, false, false, "u2net".toList⟩).Nodup := by
  decide

/-- C6 amended: the enumerator performs no deduplication at all; over
positional arguments that all exist as files it returns the argument
list exactly as given, so a path listed several times contributes one
candidate per occurrence, in order. -/
theorem C6_amended_no_dedup (w : World) (l : List PyStr) (o : Option PyStr)
    (t : Bool) (m : PyStr)
    (hne : l ≠ []) (hfs : ∀ f ∈ l, w.isFile f = true) :
    enumerate w ⟨l, o, t, false, m⟩ = l :=
  enumerate_files w ⟨l, o, t, false, m⟩ rfl hne hfs

/-- Witness for the amended C6 on a duplicated argument list. -/
theorem C6_amended_no_dedup_witness :
    enumerate testWorld
        ⟨["a.png".toList, "a.png".toList], none, false, false, "u2net".toList⟩ =
      ["a.png".toList, "a.png".toList] :=
  C6_amended_no_dedup testWorld ["a.png".toList, "a.png".toList] none false
    "u2net".toList (by decide) (by decide)

/-! Directory expansion yields exactly the recognized files: no
extension matches two of the six glob patterns at once, so the
concatenated per-pattern filters are a permutation of one filter. -/

theorem suffix_of_suffix_of_length_le {α : Type} {l1 l2 l3 : List α}
    (h1 : l1 <:+ l3) (h2 : l2 <:+ l3) (hlen : l1.length ≤ l2.length) : l1 <:+ l2 := by
  obtain ⟨x, hx⟩ := h1
  obtain ⟨y, hy⟩ := h2
  have hx' : l1 = l3.drop x.length := by rw [← hx, List.drop_left]
  have hy' : l2 = l3.drop y.length := by rw [← hy, List.drop_left]
  have hl : x.length + l1.length = y.length + l2.length := by
    rw [← List.length_append, ← List.length_append, hx, hy]
  have heq : l3.drop x.length = (l3.drop y.length).drop (x.length - y.length) := by
    rw [List.drop_drop]
    congr 1
    omega
  rw [hx', hy', heq]
  exact List.drop_suffix _ _

theorem suffix_total {α : Type} {l1 l2 l3 : List α} (h1 : l1 <:+ l3) (h2 : l2 <:+ l3) :
    l1 <:+ l2 ∨ l2 <:+ l1 := by
  rcases Nat.le_total l1.length l2.length with h | h
  · exact Or.inl (suffix_of_suffix_of_length_le h1 h2 h)
  · exact Or.inr (suffix_of_suffix_of_length_le h2 h1 h)

theorem imageExts_suffix_eq :
    ∀ e1 ∈ imageExts, ∀ e2 ∈ imageExts, e1 <:+ e2 → e1 = e2 := by decide

theorem unique_ext_match {f e1 e2 : PyStr}
    (h1 : e1 ∈ imageExts) (h2 : e2 ∈ imageExts)
    (hs1 : e1.isSuffixOf f = true) (hs2 : e2.isSuffixOf f = true) : e1 = e2 := by
  rw [List.isSuffixOf_iff_suffix] at hs1 hs2
  rcases suffix_total hs1 hs2 with h | h
  · exact imageExts_suffix_eq e1 h1 e2 h2 h
  · exact (imageExts_suffix_eq e2 h2 e1 h1 h).symm

theorem length_le_one_of_nodup_all_eq {α : Type} {l : List α}
    (hnd : l.Nodup) (hall : ∀ a ∈ l, ∀ b ∈ l, a = b) : l.length ≤ 1 := by
  match l with
  | [] => simp
  | [a] => simp
  | a :: b :: rest =>
    exfalso
    have hab : a = b := hall a (by simp) b (by simp)
    rw [List.nodup_cons] at hnd
    exact hnd.1 (hab ▸ List.mem_cons_self b rest)

theorem countP_ext_eq_one {f : PyStr} (h : matchesImageExt f = true) :
    imageExts.countP (fun e => e.isSuffixOf f) = 1 := by
  have hpos : 0 < imageExts.countP (fun e => e.isSuffixOf f) := by
    obtain ⟨e, he, hs⟩ := List.any_eq_true.mp h
    exact List.countP_pos_iff.mpr ⟨e, he, hs⟩
  have hle : imageExts.countP (fun e => e.isSuffixOf f) ≤ 1 := by
    rw [List.countP_eq_length_filter]
    refine length_le_one_of_nodup_all_eq (List.Nodup.filter _ (by decide)) ?_
    intro a ha b hb
    obtain ⟨ha1, ha2⟩ := List.mem_filter.mp ha
    obtain ⟨hb1, hb2⟩ := List.mem_filter.mp hb
    exact unique_ext_match ha1 hb1 ha2 hb2
  omega

theorem no_ext_match_of_not_matches {f : PyStr} (h : matchesImageExt f = false) :
    ∀ e ∈ imageExts, e.isSuffixOf f = false := by
  intro e he
  by_contra hc
  simp only [Bool.not_eq_false] at hc
  have : matchesImageExt f = true := List.any_eq_true.mpr ⟨e, he, hc⟩
  rw [h] at this
  exact Bool.noConfusion this

theorem flatMap_filter_cons_of_no_match (f : PyStr) (rest : List PyStr) :
    ∀ E : List PyStr, (∀ e ∈ E, e.isSuffixOf f = false) →
      E.flatMap (fun e => (f :: rest).filter (fun g => e.isSuffixOf g)) =
      E.flatMap (fun e => rest.filter (fun g => e.isSuffixOf g)) := by
  intro E
  induction E with
  | nil => intro _; rfl
  | cons e E2 ih =>
    intro h
    rw [List.flatMap_cons, List.flatMap_cons, List.filter_cons,
      if_neg (by simp [h e (List.mem_cons_self e E2)]),
      ih (fun x hx => h x (List.mem_cons_of_mem e hx))]

theorem flatMap_filter_cons_of_one_match (f : PyStr) (rest : List PyStr) :
    ∀ E : List PyStr, E.countP (fun e => e.isSuffixOf f) = 1 →
      List.Perm (E.flatMap (fun e => (f :: rest).filter (fun g => e.isSuffixOf g)))
        (f :: E.flatMap (fun e => rest.filter (fun g => e.isSuffixOf g))) := by
  intro E
  induction E with
  | nil => intro h; simp at h
  | cons e E2 ih =>
    intro h
    rw [List.countP_cons] at h
    by_cases hef : e.isSuffixOf f = true
    · have h2 : E2.countP (fun e => e.isSuffixOf f) = 0 := by
        rw [if_pos hef] at h
        omega
      rw [List.flatMap_cons, List.flatMap_cons, List.filter_cons, if_pos hef,
        flatMap_filter_cons_of_no_match f rest E2
          (fun x hx => by
            have h3 := List.countP_eq_zero.mp h2 x hx
            revert h3
            cases x.isSuffixOf f <;> simp)]
      exact List.Perm.refl _
    · have h2 : E2.countP (fun e => e.isSuffixOf f) = 1 := by
        rw [if_neg hef] at h
        omega
      rw [List.flatMap_cons, List.flatMap_cons, List.filter_cons, if_neg hef]
      exact (List.Perm.append_left _ (ih h2)).trans List.perm_middle

theorem globDir_perm (fs : List PyStr) :
    List.Perm (globDir fs) (fs.filter (fun f => matchesImageExt f)) := by
  induction fs with
  | nil =>
    have h : globDir [] = [] := by
      rw [globDir, List.flatMap_eq_nil_iff]
      intro e _
      rfl
    rw [h, List.filter_nil]
  | cons f rest ih =>
    rw [List.filter_cons]
    by_cases hm : matchesImageExt f = true
    · rw [if_pos hm]
      unfold globDir
      exact (flatMap_filter_cons_of_one_match f rest imageExts (countP_ext_eq_one hm)).trans
        (List.Perm.cons f ih)
    · rw [if_neg hm]
      have hm' : matchesImageExt f = false := by
        revert hm
        cases matchesImageExt f <;> simp
      unfold globDir
      rw [flatMap_filter_cons_of_no_match f rest imageExts (no_ext_match_of_not_matches hm')]
      exact ih

/-- C8: a directory given as a positional argument expands to exactly
its recognized-extension files: the candidates are a permutation of
the matching directory entries joined under the directory, their
number is the count of matching names, and every candidate is a direct
child of the directory (no recursion into subdirectories). -/
theorem C8_directory_expansion
    (w : World) (d : PyStr) (o : Option PyStr) (t : Bool) (m : PyStr)
    (hnf : w.isFile d = false) (hdir : w.isDir d = true) :
    List.Perm (enumerate w ⟨[d], o, t, false, m⟩)
      (((w.dirFiles d).filter (fun n => matchesImageExt n)).map (fun n => pathJoin d n)) ∧
    (enumerate w ⟨[d], o, t, false, m⟩).length =
      (w.dirFiles d).countP (fun n => matchesImageExt n) ∧
    ∀ p ∈ enumerate w ⟨[d], o, t, false, m⟩, ∃ n ∈ w.dirFiles d, p = pathJoin d n := by
  have henum : enumerate w ⟨[d], o, t, false, m⟩ =
      (globDir (w.dirFiles d)).map (fun n => pathJoin d n) := by
    simp [enumerate, hnf, hdir]
  have hperm : List.Perm (enumerate w ⟨[d], o, t, false, m⟩)
      (((w.dirFiles d).filter (fun n => matchesImageExt n)).map (fun n => pathJoin d n)) := by
    rw [henum]
    exact List.Perm.map _ (globDir_perm (w.dirFiles d))
  refine ⟨hperm, ?_, ?_⟩
  · rw [hperm.length_eq, List.length_map, ← List.countP_eq_length_filter]
  · intro p hp
    rw [henum] at hp
    obtain ⟨n, hn, rfl⟩ := List.mem_map.mp hp
    obtain ⟨e, he, hnf2⟩ := List.mem_flatMap.mp hn
    exact ⟨n, (List.mem_filter.mp hnf2).1, rfl⟩

/-- Witness for C8: directory `d` holds `x.png` (recognized) and
`y.txt` (not recognized), so expansion yields exactly `d/x.png`. -/
theorem C8_directory_expansion_witness :
    List.Perm (enumerate testWorld ⟨["d".toList], none, false, false, "u2net".toList⟩)
      (((testWorld.dirFiles "d".toList).filter (fun n => matchesImageExt n)).map
        (fun n => pathJoin "d".toList n)) ∧
    (enumerate testWorld ⟨["d".toList], none, false, false, "u2net".toList⟩).length =
      (testWorld.dirFiles "d".toList).countP (fun n => matchesImageExt n) ∧
    ∀ p ∈ enumerate testWorld ⟨["d".toList], none, false, false, "u2net".toList⟩,
      ∃ n ∈ testWorld.dirFiles "d".toList, p = pathJoin "d".toList n :=
  C8_directory_expansion testWorld "d".toList none false "u2net".toList
    (by decide) (by decide)

end BackgroundRemover
